import Mathlib

/-!
# Verification of the `commodity-registry` package

A shallow embedding of `src/commodity_registry/models.py`,
`src/commodity_registry/registry.py` and the duplicate-ISIN lint check of
`src/commodity_registry/cli.py`, together with theorems settling the frozen
claims about the package.

Python strings are modelled as Lean `String`s and the Python `str` methods
(`upper`, `isalnum`, `isalpha`, `isdigit`, `isupper`) are modelled on their
ASCII fragment, which is the fragment the data of this package exercises.
Python `dict`s are modelled as functions `String → Option _` built by folding
over the record list exactly as the Python code iterates; Python `float`
appears only in the never-consulted `validation_points` payload and is
modelled as `Rat`.
-/

namespace CommodityRegistry

/-! ## ASCII model of the Python `str` methods -/

/-- Python `c.islower()` for an ASCII character (code points 97–122). -/
def pyIsLowerChar (c : Char) : Bool :=
  97 ≤ c.toNat && c.toNat ≤ 122

/-- Python `c.isupper()` for an ASCII character (code points 65–90). -/
def pyIsUpperChar (c : Char) : Bool :=
  65 ≤ c.toNat && c.toNat ≤ 90

/-- Python `c.isdigit()` for an ASCII character (code points 48–57). -/
def pyIsDigitChar (c : Char) : Bool :=
  48 ≤ c.toNat && c.toNat ≤ 57

/-- Python `c.isalpha()` for an ASCII character. -/
def pyIsAlphaChar (c : Char) : Bool :=
  pyIsUpperChar c || pyIsLowerChar c

/-- Python `c.isalnum()` for an ASCII character. -/
def pyIsAlnumChar (c : Char) : Bool :=
  pyIsAlphaChar c || pyIsDigitChar c

/-- Python `str.upper` on one ASCII character. -/
def pyUpperChar (c : Char) : Char :=
  if pyIsLowerChar c then Char.ofNat (c.toNat - 32) else c

/-- Python `s.upper()` (ASCII fragment). -/
def pyUpper (s : String) : String :=
  String.mk (s.data.map pyUpperChar)

/-- Python `s.isalnum()`: non-empty and every character alphanumeric. -/
def pyIsAlnum (s : String) : Bool :=
  !s.data.isEmpty && s.data.all pyIsAlnumChar

/-- Python `s.isalpha()`: non-empty and every character alphabetic. -/
def pyIsAlphaStr (s : String) : Bool :=
  !s.data.isEmpty && s.data.all pyIsAlphaChar

/-- Python `s.isupper()`: at least one cased character and no cased character
is lowercase (ASCII: cased = letter). -/
def pyIsUpperStr (s : String) : Bool :=
  s.data.any pyIsAlphaChar && s.data.all (fun c => !pyIsAlphaChar c || pyIsUpperChar c)

/-! ## The data model (`models.py`) -/

/-- `models.InstrumentType`. -/
inductive InstrumentType where
  | ETF | ETC | ETN | STOCK | INDEX | FUTURE | CRYPTO | CASH
deriving DecidableEq, Repr

/-- `models.AssetClass`. -/
inductive AssetClass where
  | EQUITY_ETF | FIXED_INCOME_ETF | COMMODITY_ETF | MONEY_MARKET_ETF
  | STOCK | CASH | CRYPTO | COMMODITY
deriving DecidableEq, Repr

/-- `models.RiskProfile`. -/
inductive RiskProfile where
  | LOW | MEDIUM | HIGH | SPECULATIVE
deriving DecidableEq, Repr

/-- `models.Liquidity`. -/
inductive Liquidity where
  | INSTANT | T_PLUS_2 | LOCKED
deriving DecidableEq, Repr

/-- `models.Tickers`: a closed pydantic model with exactly the three provider
fields `yahoo`, `ft`, `google`, each optional. -/
structure Tickers where
  yahoo : Option String := none
  ft : Option String := none
  google : Option String := none
deriving DecidableEq, Repr

/-- `models.ValidationPoint` (the Python `float` price is modelled as `Rat`;
no claim consults it). -/
structure ValidationPoint where
  date : String
  price : Rat
deriving DecidableEq, Repr

/-- `models.Commodity` (field order as in the source). -/
structure Commodity where
  name : String
  isin : Option String := none
  figi : Option String := none
  instrument_type : InstrumentType
  asset_class : AssetClass
  currency : String
  issuer : Option String := none
  underlying : Option String := none
  tickers : Option Tickers := none
  validation_points : Option (List ValidationPoint) := none
  provider : Option String := none
  risk_profile : Option RiskProfile := none
  liquidity : Option Liquidity := none
deriving DecidableEq, Repr

/-- Pydantic construction of `Tickers` from a plain dict, as done by
`registry.add_commodity` (`tickers_dict = {metadata.provider: metadata.ticker}`):
the declared fields are read off the dict and every other provider key is
dropped (the pydantic default behaviour for extra keys). -/
def lookupStr (k : String) : List (String × String) → Option String
  | [] => none
  | (k2, v) :: rest => if k2 = k then some v else lookupStr k rest

/-- Build a `Tickers` value from an open provider→ticker dict. -/
def tickersFromDict (pairs : List (String × String)) : Tickers :=
  { yahoo := lookupStr "yahoo" pairs
    ft := lookupStr "ft" pairs
    google := lookupStr "google" pairs }

/-! ## The validators (`models.Commodity.validate_isin` / `validate_currency`) -/

/-- The digit stream of `Commodity.validate_isin`: digits pass through
(`int(char)`), letters expand to two digits via `val = ord(char) - 55`,
tens digit first. -/
def isinDigits : List Char → List Nat
  | [] => []
  | c :: rest =>
      if pyIsDigitChar c then (c.toNat - 48) :: isinDigits rest
      else (c.toNat - 55) / 10 :: (c.toNat - 55) % 10 :: isinDigits rest

/-- The checksum loop of `validate_isin`: walk the (already reversed) digit
stream with a running 0-based index, doubling at odd indices and subtracting 9
when the doubled value exceeds 9. -/
def luhnSum : List Nat → Nat → Nat
  | [], _ => 0
  | d :: rest, i =>
      (if i % 2 = 1 then (if d * 2 > 9 then d * 2 - 9 else d * 2) else d) + luhnSum rest (i + 1)

/-- `checksum` of `validate_isin`: `for i, digit in enumerate(reversed(digits))`. -/
def luhnChecksum (ds : List Nat) : Nat :=
  luhnSum ds.reverse 0

/-- `Commodity.validate_isin` on a present (non-`None`) value: uppercase, check
shape, check country code, check the Luhn checksum. -/
def validate_isin (v0 : String) : Except String String :=
  let v := pyUpper v0
  if pyIsAlnum v = false ∨ v.data.length ≠ 12 then
    Except.error "ISIN must be 12 alphanumeric characters"
  else if pyIsAlphaStr (String.mk (v.data.take 2)) = false then
    Except.error "ISIN must start with 2-letter country code"
  else if luhnChecksum (isinDigits v.data) % 10 ≠ 0 then
    Except.error ("Invalid ISIN checksum for " ++ v)
  else
    Except.ok v

/-- `Commodity.validate_currency`: `if not v.isupper() or len(v) != 3`. -/
def validate_currency (v : String) : Except String String :=
  if pyIsUpperStr v = false ∨ v.data.length ≠ 3 then
    Except.error "Currency must be a 3-letter uppercase ISO code"
  else
    Except.ok v

/-- Did a validator accept? -/
def accepts (e : Except String String) : Bool :=
  match e with
  | Except.ok _ => true
  | Except.error _ => false


/-! ## The registry indices (`registry.CommodityRegistry._rebuild_indices`)

The registry state after `_rebuild_indices` is a pure function of the loaded
record list `self._commodities`; each Python dict is modelled as the function
obtained by folding the corresponding loop over that list. -/

/-- One step of the `_by_isin` loop: `if c.isin:` (false for `None` and for the
empty string), key `c.isin.upper()`, new record inserted at the front of the
key list. -/
def addIsin (m : String → List Commodity) (c : Commodity) : String → List Commodity :=
  match c.isin with
  | none => m
  | some i =>
      if i = "" then m
      else fun k => if k = pyUpper i then c :: m k else m k

/-- `self._by_isin` as a function of the loaded record list. -/
def by_isin (cs : List Commodity) : String → List Commodity :=
  cs.foldl addIsin fun _ => []

/-- One step of the `_by_name` dict comprehension: uppercased name, later
records overwrite earlier ones. -/
def addName (m : String → Option Commodity) (c : Commodity) : String → Option Commodity :=
  fun k => if k = pyUpper c.name then some c else m k

/-- `self._by_name` as a function of the loaded record list. -/
def by_name (cs : List Commodity) : String → Option Commodity :=
  cs.foldl addName fun _ => none

/-- One step of the `_by_figi` loop: `if c.figi:` guard, uppercased key,
last-wins overwrite. -/
def addFigi (m : String → Option Commodity) (c : Commodity) : String → Option Commodity :=
  match c.figi with
  | none => m
  | some f =>
      if f = "" then m
      else fun k => if k = pyUpper f then some c else m k

/-- `self._by_figi` as a function of the loaded record list. -/
def by_figi (cs : List Commodity) : String → Option Commodity :=
  cs.foldl addFigi fun _ => none

/-- `c.tickers.model_dump().items()`: the provider/ticker pairs in field
declaration order of the model. -/
def tickerItems (t : Tickers) : List (String × Option String) :=
  [("yahoo", t.yahoo), ("ft", t.ft), ("google", t.google)]

/-- The `_by_ticker` key `f"{provider.upper()}:{ticker.upper()}"`. -/
def tickerKey (provider ticker : String) : String :=
  pyUpper provider ++ ":" ++ pyUpper ticker

/-- One provider/ticker pair of the `_by_ticker` loop: `if ticker:` (false for
`None` and the empty string), last-wins overwrite. -/
def addTickerPair (c : Commodity) (m : String → Option Commodity)
    (pr : String × Option String) : String → Option Commodity :=
  match pr.2 with
  | none => m
  | some tk =>
      if tk = "" then m
      else fun k => if k = tickerKey pr.1 tk then some c else m k

/-- One record of the `_by_ticker` loop: `if c.tickers:` (a model instance is
always truthy, so only `None` is skipped). -/
def addTicker (m : String → Option Commodity) (c : Commodity) : String → Option Commodity :=
  match c.tickers with
  | none => m
  | some t => (tickerItems t).foldl (addTickerPair c) m

/-- `self._by_ticker` as a function of the loaded record list. -/
def by_ticker (cs : List Commodity) : String → Option Commodity :=
  cs.foldl addTicker fun _ => none

/-- The `_by_ticker` keys contributed by a list of provider/ticker pairs. -/
def itemKeys (items : List (String × Option String)) : List String :=
  items.filterMap fun pr =>
    match pr.2 with
    | none => none
    | some tk => if tk = "" then none else some (tickerKey pr.1 tk)

/-- The `_by_ticker` keys contributed by one record. -/
def tickerKeys (c : Commodity) : List String :=
  match c.tickers with
  | none => []
  | some t => itemKeys (tickerItems t)

/-! ## The lookups (`find_candidates`, `find_by_isin`, `find_by_ticker`) -/

/-- An optional index hit as a candidate list. -/
def optToList : Option Commodity → List Commodity
  | some c => [c]
  | none => []

/-- The deduplication loop of `find_candidates`: keep the first record seen for
each canonical `c.name`. -/
def dedupByName : List Commodity → List String → List Commodity
  | [], _ => []
  | c :: rest, seen =>
      if c.name ∈ seen then dedupByName rest seen
      else c :: dedupByName rest (c.name :: seen)

/-- `CommodityRegistry.find_candidates` over the loaded record list: empty
token ⇒ `[]`; otherwise probe ISIN, then name, then FIGI index with the
uppercased token, deduplicate by name, and — when a non-empty currency is
supplied (`if currency:`) — filter case-insensitively by currency. -/
def find_candidates (cs : List Commodity) (token : String)
    (currency : Option String) : List Commodity :=
  if token = "" then []
  else
    let t := pyUpper token
    let candidates :=
      by_isin cs t ++ optToList (by_name cs t) ++ optToList (by_figi cs t)
    let unique := dedupByName candidates []
    match currency with
    | none => unique
    | some cur =>
        if cur = "" then unique
        else unique.filter fun c => pyUpper c.currency == pyUpper cur

/-- `CommodityRegistry.find_by_isin`: first candidate, if any. -/
def find_by_isin (cs : List Commodity) (isin : String)
    (currency : Option String) : Option Commodity :=
  (find_candidates cs isin currency).head?

/-- `CommodityRegistry.find_by_ticker`. -/
def find_by_ticker (cs : List Commodity) (provider ticker : String) : Option Commodity :=
  by_ticker cs (tickerKey provider ticker)

/-! ## Loading (`CommodityRegistry._load_file`)

The filesystem and YAML layers are abstracted into what `_load_file` observes
about one path: the path may not exist, parse to falsy data, parse and
validate to a record list, or fail (YAML error or pydantic schema violation).
-/

/-- What one input path yields inside `_load_file`. -/
inductive FileContent where
  | parsed (commodities : List Commodity)
  | empty
  | bad (detail : String)
deriving DecidableEq, Repr

/-- One input file: `content = none` models a non-existing path. -/
structure InputFile where
  path : String
  content : Option FileContent
deriving DecidableEq, Repr

/-- The mutable loading state of `CommodityRegistry`. -/
structure RegistryState where
  commodities : List Commodity
  load_errors : List String
deriving DecidableEq, Repr

/-- The error string appended by `_load_file` on failure. -/
def loadErrorMsg (path detail : String) : String :=
  "Error loading " ++ path ++ ": " ++ detail

/-- `CommodityRegistry._load_file`: missing path ⇒ return; falsy data ⇒
return; parsed file ⇒ extend `self._commodities`; any exception ⇒ append the
error string and continue. -/
def load_file (st : RegistryState) (f : InputFile) : RegistryState :=
  match f.content with
  | none => st
  | some FileContent.empty => st
  | some (FileContent.parsed cs) =>
      { st with commodities := st.commodities ++ cs }
  | some (FileContent.bad detail) =>
      { st with load_errors := st.load_errors ++ [loadErrorMsg f.path detail] }

/-- Loading a sequence of files into a fresh registry. -/
def load_files (files : List InputFile) : RegistryState :=
  files.foldl load_file { commodities := [], load_errors := [] }

/-! ## The duplicate-ISIN lint check (`cli.lint_cmd`, Check 1) -/

/-- The state of the `seen_isins` scan in `lint_cmd`. -/
structure LintState where
  errors : List String
  seen_isins : String → Option String

/-- The duplicate-ISIN error string of `lint_cmd`. -/
def dupIsinMsg (isin nameNow namePrev : String) : String :=
  "Duplicate ISIN " ++ isin ++ " in " ++ nameNow ++ " and " ++ namePrev

/-- One record of the `lint_cmd` scan: `if c.isin:` guard (raw, not
uppercased), report when already seen, then record `c.name` for the ISIN. -/
def lintStep (st : LintState) (c : Commodity) : LintState :=
  match c.isin with
  | none => st
  | some i =>
      if i = "" then st
      else
        match st.seen_isins i with
        | some prev =>
            { errors := st.errors ++ [dupIsinMsg i c.name prev]
              seen_isins := fun k => if k = i then some c.name else st.seen_isins k }
        | none =>
            { errors := st.errors
              seen_isins := fun k => if k = i then some c.name else st.seen_isins k }

/-- The duplicate-ISIN errors produced by linting a loaded record list. -/
def dupIsinErrors (cs : List Commodity) : List String :=
  (cs.foldl lintStep { errors := [], seen_isins := fun _ => none }).errors

/-- The non-empty ISIN the lint scan sees on a record, if any. -/
def recordIsin (c : Commodity) : Option String :=
  match c.isin with
  | none => none
  | some i => if i = "" then none else some i

/-! ## Spec-side restatements (for the refinement parts of the claims)

These definitions follow the wording of `spec.md` §4.1 rather than the Python
control flow, so that the ISIN acceptance condition can be compared with the
validator of the code. -/

/-- Spec wording: the digit stream of an ISIN — digits pass through, a letter
maps to two digits via `value = code_point - 55`, tens digit then ones digit. -/
def specDigitStream (s : List Char) : List Nat :=
  s.foldr
    (fun c acc =>
      (if pyIsDigitChar c then [c.toNat - 48]
       else [(c.toNat - 55) / 10, (c.toNat - 55) % 10]) ++ acc)
    []

/-- Spec wording: process the digit stream in reverse, double every digit at
odd 0-indexed position (subtracting 9 if the doubled value exceeds 9), sum. -/
def specLuhnSum (ds : List Nat) : Nat :=
  (ds.reverse.mapIdx fun i d =>
    if i % 2 = 1 then (if d * 2 > 9 then d * 2 - 9 else d * 2) else d).sum

/-- Spec wording for ISIN acceptance: after uppercasing, exactly 12
alphanumeric characters, the first two alphabetic, and the Luhn-style
checksum divisible by 10. -/
def isinSpecOk (s : String) : Prop :=
  let u := pyUpper s
  u.data.length = 12 ∧
  (∀ c ∈ u.data, pyIsAlnumChar c = true) ∧
  (∀ c ∈ u.data.take 2, pyIsAlphaChar c = true) ∧
  specLuhnSum (specDigitStream u.data) % 10 = 0

/-- The records contributed by one input file. -/
def fileRecords (f : InputFile) : List Commodity :=
  match f.content with
  | some (FileContent.parsed cs) => cs
  | _ => []

/-- The load error contributed by one input file, if any. -/
def fileError (f : InputFile) : Option String :=
  match f.content with
  | some (FileContent.bad detail) => some (loadErrorMsg f.path detail)
  | _ => none

/-! ## Concrete sample data for witnesses and counterexamples -/

/-- A gold record priced in USD. -/
def sampleGoldUSD : Commodity :=
  { name := "GOLD", isin := some "US0378331005",
    instrument_type := InstrumentType.ETC, asset_class := AssetClass.COMMODITY,
    currency := "USD" }

/-- A second record with the same ISIN and the same canonical name, priced in
EUR. -/
def sampleGoldEUR : Commodity :=
  { name := "GOLD", isin := some "US0378331005",
    instrument_type := InstrumentType.ETC, asset_class := AssetClass.COMMODITY,
    currency := "EUR" }

/-- A record with the same ISIN but a distinct canonical name. -/
def sampleGold2 : Commodity :=
  { name := "GOLD2", isin := some "US0378331005",
    instrument_type := InstrumentType.ETC, asset_class := AssetClass.COMMODITY,
    currency := "EUR" }

/-- A record whose ticker dict names the unknown provider "ibkr": pydantic
drops the pair at construction. -/
def sampleIbkr : Commodity :=
  { name := "GLD",
    instrument_type := InstrumentType.ETF, asset_class := AssetClass.COMMODITY_ETF,
    currency := "USD", tickers := some (tickersFromDict [("ibkr", "GLD")]) }

/-- A record carrying a yahoo ticker. -/
def sampleYahoo : Commodity :=
  { name := "XAID", isin := some "GB00B00FHZ82",
    instrument_type := InstrumentType.ETF, asset_class := AssetClass.COMMODITY_ETF,
    currency := "GBP", tickers := some { yahoo := some "XAID.L" } }

/-- A corrupt input file. -/
def sampleBadFile : InputFile :=
  { path := "data/bad.yaml", content := some (FileContent.bad "mapping values are not allowed here") }

/-- A valid input file holding one record. -/
def sampleGoodFile : InputFile :=
  { path := "data/good.yaml", content := some (FileContent.parsed [sampleYahoo]) }


/-! ## Helper lemmas about the indices -/

theorem by_name_append (cs : List Commodity) (c : Commodity) (k : String) :
    by_name (cs ++ [c]) k = if k = pyUpper c.name then some c else by_name cs k := by
  simp [by_name, List.foldl_append, addName]

theorem by_figi_append (cs : List Commodity) (c : Commodity) (f k : String)
    (hf : c.figi = some f) (hne : f ≠ "") :
    by_figi (cs ++ [c]) k = if k = pyUpper f then some c else by_figi cs k := by
  simp [by_figi, List.foldl_append, addFigi, hf, hne]

theorem by_isin_append (cs : List Commodity) (c : Commodity) (i k : String)
    (hi : c.isin = some i) (hne : i ≠ "") :
    by_isin (cs ++ [c]) k = if k = pyUpper i then c :: by_isin cs k else by_isin cs k := by
  simp [by_isin, List.foldl_append, addIsin, hi, hne]

theorem itemKeys_cons_none (p : String) (rest : List (String × Option String)) :
    itemKeys ((p, none) :: rest) = itemKeys rest := by
  simp [itemKeys, List.filterMap_cons]

theorem itemKeys_cons_some (p tk : String) (rest : List (String × Option String))
    (h : tk ≠ "") :
    itemKeys ((p, some tk) :: rest) = tickerKey p tk :: itemKeys rest := by
  simp [itemKeys, List.filterMap_cons, h]

theorem itemKeys_cons_empty (p : String) (rest : List (String × Option String)) :
    itemKeys ((p, some "") :: rest) = itemKeys rest := by
  simp [itemKeys, List.filterMap_cons]

theorem addTickerPair_items (c : Commodity) (items : List (String × Option String)) :
    ∀ (m : String → Option Commodity) (k : String),
      (items.foldl (addTickerPair c) m) k = if k ∈ itemKeys items then some c else m k := by
  induction items with
  | nil => intro m k; simp [itemKeys]
  | cons pr rest ih =>
      intro m k
      rcases pr with ⟨p, tk?⟩
      rcases tk? with _ | tk
      · simp only [List.foldl_cons, ih, itemKeys_cons_none]
        simp [addTickerPair]
      · by_cases htk : tk = ""
        · subst htk
          simp only [List.foldl_cons, ih, itemKeys_cons_empty]
          simp [addTickerPair]
        · simp only [List.foldl_cons, ih, itemKeys_cons_some p tk rest htk]
          by_cases h1 : k ∈ itemKeys rest
          · simp [h1, List.mem_cons]
          · by_cases h2 : k = tickerKey p tk
            · simp [h1, h2, addTickerPair, htk]
            · simp [h1, h2, addTickerPair, htk]

theorem by_ticker_append (cs : List Commodity) (c : Commodity) (k : String) :
    by_ticker (cs ++ [c]) k = if k ∈ tickerKeys c then some c else by_ticker cs k := by
  rcases ht : c.tickers with _ | t
  · simp [by_ticker, List.foldl_append, addTicker, ht, tickerKeys]
  · simp only [by_ticker, List.foldl_append, List.foldl_cons, List.foldl_nil]
    rw [show addTicker (List.foldl addTicker (fun _ => none) cs) c
        = (tickerItems t).foldl (addTickerPair c) (List.foldl addTicker (fun _ => none) cs) by
      simp [addTicker, ht]]
    rw [addTickerPair_items]
    simp [tickerKeys, ht]

theorem by_name_sound (cs : List Commodity) (k : String) (c : Commodity)
    (h : by_name cs k = some c) : c ∈ cs ∧ pyUpper c.name = k := by
  suffices H : ∀ (m : String → Option Commodity),
      (List.foldl addName m cs) k = some c → m k = some c ∨ (c ∈ cs ∧ pyUpper c.name = k) by
    rcases H (fun _ => none) h with h' | h'
    · exact absurd h' (by simp)
    · exact h'
  clear h
  induction cs with
  | nil => intro m hm; exact Or.inl hm
  | cons c0 rest ih =>
      intro m hm
      rcases ih (addName m c0) hm with h' | h'
      · by_cases hk : k = pyUpper c0.name
        · have hc : c0 = c := by simpa [addName, hk] using h'
          exact Or.inr ⟨by rw [← hc]; exact List.mem_cons_self c0 rest, by rw [← hc, hk]⟩
        · exact Or.inl (by simpa [addName, hk] using h')
      · exact Or.inr ⟨List.mem_cons_of_mem _ h'.1, h'.2⟩

theorem by_figi_sound (cs : List Commodity) (k : String) (c : Commodity)
    (h : by_figi cs k = some c) :
    c ∈ cs ∧ ∃ f, c.figi = some f ∧ f ≠ "" ∧ pyUpper f = k := by
  suffices H : ∀ (m : String → Option Commodity),
      (List.foldl addFigi m cs) k = some c →
        m k = some c ∨ (c ∈ cs ∧ ∃ f, c.figi = some f ∧ f ≠ "" ∧ pyUpper f = k) by
    rcases H (fun _ => none) h with h' | h'
    · exact absurd h' (by simp)
    · exact h'
  clear h
  induction cs with
  | nil => intro m hm; exact Or.inl hm
  | cons c0 rest ih =>
      intro m hm
      rcases ih (addFigi m c0) hm with h' | h'
      · rcases hf : c0.figi with _ | f
        · exact Or.inl (by simpa [addFigi, hf] using h')
        · by_cases hne : f = ""
          · exact Or.inl (by simpa [addFigi, hf, hne] using h')
          · by_cases hk : k = pyUpper f
            · have hc : c0 = c := by simpa [addFigi, hf, hne, hk] using h'
              exact Or.inr ⟨by rw [← hc]; exact List.mem_cons_self c0 rest,
                f, by rw [← hc, hf], hne, hk.symm⟩
            · exact Or.inl (by simpa [addFigi, hf, hne, hk] using h')
      · exact Or.inr ⟨List.mem_cons_of_mem _ h'.1, h'.2⟩

theorem by_isin_sound (cs : List Commodity) (k : String) (c : Commodity)
    (h : c ∈ by_isin cs k) :
    c ∈ cs ∧ ∃ i, c.isin = some i ∧ i ≠ "" ∧ pyUpper i = k := by
  suffices H : ∀ (m : String → List Commodity),
      c ∈ (List.foldl addIsin m cs) k →
        c ∈ m k ∨ (c ∈ cs ∧ ∃ i, c.isin = some i ∧ i ≠ "" ∧ pyUpper i = k) by
    rcases H (fun _ => []) h with h' | h'
    · exact absurd h' (by simp)
    · exact h'
  clear h
  induction cs with
  | nil => intro m hm; exact Or.inl hm
  | cons c0 rest ih =>
      intro m hm
      rcases ih (addIsin m c0) hm with h' | h'
      · rcases hi : c0.isin with _ | i
        · exact Or.inl (by simpa [addIsin, hi] using h')
        · by_cases hne : i = ""
          · exact Or.inl (by simpa [addIsin, hi, hne] using h')
          · by_cases hk : k = pyUpper i
            · have h'' : c ∈ c0 :: m k := by simpa [addIsin, hi, hne, hk] using h'
              rcases List.mem_cons.mp h'' with rfl | hmem
              · exact Or.inr ⟨List.mem_cons_self c rest, i, hi, hne, hk.symm⟩
              · exact Or.inl hmem
            · exact Or.inl (by simpa [addIsin, hi, hne, hk] using h')
      · exact Or.inr ⟨List.mem_cons_of_mem _ h'.1, h'.2⟩

theorem by_ticker_sound (cs : List Commodity) (k : String) (c : Commodity)
    (h : by_ticker cs k = some c) : c ∈ cs := by
  suffices H : ∀ (m : String → Option Commodity),
      (List.foldl addTicker m cs) k = some c → m k = some c ∨ c ∈ cs by
    rcases H (fun _ => none) h with h' | h'
    · exact absurd h' (by simp)
    · exact h'
  clear h
  induction cs with
  | nil => intro m hm; exact Or.inl hm
  | cons c0 rest ih =>
      intro m hm
      rcases ih (addTicker m c0) hm with h' | h'
      · rcases ht : c0.tickers with _ | t
        · exact Or.inl (by simpa [addTicker, ht] using h')
        · have h'' : (if k ∈ itemKeys (tickerItems t) then some c0 else m k) = some c := by
            rw [← addTickerPair_items c0 (tickerItems t) m k]
            simpa [addTicker, ht] using h'
          by_cases hk : k ∈ itemKeys (tickerItems t)
          · have hc : c0 = c := by simpa [hk] using h''
            exact Or.inr (by rw [← hc]; exact List.mem_cons_self c0 rest)
          · exact Or.inl (by simpa [hk] using h'')
      · exact Or.inr (List.mem_cons_of_mem _ h')

/-! ## Helper lemmas about deduplication -/

theorem dedup_subset : ∀ (l : List Commodity) (seen : List String) (c : Commodity),
    c ∈ dedupByName l seen → c ∈ l := by
  intro l
  induction l with
  | nil => intro seen c h; simp [dedupByName] at h
  | cons c0 rest ih =>
      intro seen c h
      by_cases h0 : c0.name ∈ seen
      · simp only [dedupByName, if_pos h0] at h
        exact List.mem_cons_of_mem _ (ih seen c h)
      · simp only [dedupByName, if_neg h0] at h
        rcases List.mem_cons.mp h with rfl | h'
        · exact List.mem_cons_self _ _
        · exact List.mem_cons_of_mem _ (ih _ c h')

theorem dedup_names_nodup : ∀ (l : List Commodity) (seen : List String),
    ((dedupByName l seen).map Commodity.name).Nodup ∧
      ∀ c ∈ dedupByName l seen, c.name ∉ seen := by
  intro l
  induction l with
  | nil => intro seen; simp [dedupByName]
  | cons c0 rest ih =>
      intro seen
      by_cases h0 : c0.name ∈ seen
      · simpa only [dedupByName, if_pos h0] using ih seen
      · simp only [dedupByName, if_neg h0, List.map_cons, List.nodup_cons]
        refine ⟨⟨?_, (ih (c0.name :: seen)).1⟩, ?_⟩
        · intro hmem
          rcases List.mem_map.mp hmem with ⟨x, hx, hxn⟩
          exact absurd (hxn ▸ List.mem_cons_self c0.name seen) ((ih (c0.name :: seen)).2 x hx)
        · intro c hc
          rcases List.mem_cons.mp hc with rfl | hc'
          · exact h0
          · intro hcs
            exact (ih (c0.name :: seen)).2 c hc' (List.mem_cons_of_mem _ hcs)

theorem dedup_all_seen : ∀ (l : List Commodity) (seen : List String),
    (∀ x ∈ l, x.name ∈ seen) → dedupByName l seen = [] := by
  intro l
  induction l with
  | nil => intro seen _; rfl
  | cons c0 rest ih =>
      intro seen h
      have h0 : c0.name ∈ seen := h c0 (List.mem_cons_self _ _)
      simp only [dedupByName, if_pos h0]
      exact ih seen fun x hx => h x (List.mem_cons_of_mem _ hx)

theorem dedup_append_drop : ∀ (l1 l2 : List Commodity) (seen : List String),
    (∀ x ∈ l2, x.name ∈ l1.map Commodity.name ∨ x.name ∈ seen) →
    dedupByName (l1 ++ l2) seen = dedupByName l1 seen := by
  intro l1
  induction l1 with
  | nil =>
      intro l2 seen h
      simp only [List.nil_append, dedupByName]
      exact dedup_all_seen l2 seen fun x hx => by
        rcases h x hx with h' | h'
        · simp at h'
        · exact h'
  | cons c0 rest ih =>
      intro l2 seen h
      by_cases h0 : c0.name ∈ seen
      · simp only [List.cons_append, dedupByName, if_pos h0, List.append_eq]
        refine ih l2 seen fun x hx => ?_
        rcases h x hx with h' | h'
        · rw [List.map_cons] at h'
          rcases List.mem_cons.mp h' with h'' | h''
          · exact Or.inr (h'' ▸ h0)
          · exact Or.inl h''
        · exact Or.inr h'
      · simp only [List.cons_append, dedupByName, if_neg h0, List.append_eq]
        rw [ih l2 (c0.name :: seen) fun x hx => ?_]
        rcases h x hx with h' | h'
        · rw [List.map_cons] at h'
          rcases List.mem_cons.mp h' with h'' | h''
          · exact Or.inr (by simp [h''])
          · exact Or.inl h''
        · exact Or.inr (List.mem_cons_of_mem _ h')

/-! ## Helper lemmas about the lint scan -/

theorem lint_errors_grow : ∀ (cs : List Commodity) (st : LintState),
    ∃ ext, (cs.foldl lintStep st).errors = st.errors ++ ext := by
  intro cs
  induction cs with
  | nil => intro st; exact ⟨[], by simp⟩
  | cons c rest ih =>
      intro st
      rcases hi : c.isin with _ | i
      · rcases ih st with ⟨ext, hx⟩
        exact ⟨ext, by simpa [lintStep, hi] using hx⟩
      · by_cases hne : i = ""
        · rcases ih st with ⟨ext, hx⟩
          exact ⟨ext, by simpa [lintStep, hi, hne] using hx⟩
        · rcases hs : st.seen_isins i with _ | prev
          · rcases ih ⟨st.errors, fun k => if k = i then some c.name else st.seen_isins k⟩ with ⟨ext, hx⟩
            exact ⟨ext, by simpa [lintStep, hi, hne, hs] using hx⟩
          · rcases ih ⟨st.errors ++ [dupIsinMsg i c.name prev],
                fun k => if k = i then some c.name else st.seen_isins k⟩ with ⟨ext, hx⟩
            exact ⟨dupIsinMsg i c.name prev :: ext, by
              simpa [lintStep, hi, hne, hs, List.append_assoc] using hx⟩

theorem lint_scan_clean : ∀ (cs : List Commodity) (st : LintState),
    (cs.foldl lintStep st).errors = [] ↔
      st.errors = [] ∧ (cs.filterMap recordIsin).Nodup ∧
        ∀ i ∈ cs.filterMap recordIsin, st.seen_isins i = none := by
  intro cs
  induction cs with
  | nil => intro st; simp
  | cons c rest ih =>
      intro st
      rcases hi : c.isin with _ | i
      · have hr : recordIsin c = none := by simp [recordIsin, hi]
        simp only [List.foldl_cons, List.filterMap_cons, hr]
        rw [show lintStep st c = st by simp [lintStep, hi]]
        exact ih st
      · by_cases hne : i = ""
        · have hr : recordIsin c = none := by simp [recordIsin, hi, hne]
          simp only [List.foldl_cons, List.filterMap_cons, hr]
          rw [show lintStep st c = st by simp [lintStep, hi, hne]]
          exact ih st
        · have hr : recordIsin c = some i := by simp [recordIsin, hi, hne]
          simp only [List.foldl_cons, List.filterMap_cons, hr]
          rcases hs : st.seen_isins i with _ | prev
          · rw [show lintStep st c
                = ⟨st.errors, fun k => if k = i then some c.name else st.seen_isins k⟩ by
              simp [lintStep, hi, hne, hs]]
            rw [ih _]
            constructor
            · rintro ⟨he, hnd, hseen⟩
              refine ⟨he, List.nodup_cons.mpr ⟨?_, hnd⟩, ?_⟩
              · intro hmem
                have hcontra := hseen i hmem
                simp at hcontra
              · intro j hj
                rcases List.mem_cons.mp hj with rfl | hj'
                · exact hs
                · have hj2 := hseen j hj'
                  by_cases hji : j = i
                  · exact hji ▸ hs
                  · simpa [hji] using hj2
            · rintro ⟨he, hnd, hseen⟩
              have hni : i ∉ rest.filterMap recordIsin := (List.nodup_cons.mp hnd).1
              refine ⟨he, (List.nodup_cons.mp hnd).2, ?_⟩
              intro j hj
              have hji : j ≠ i := fun hh => hni (hh ▸ hj)
              simpa [hji] using hseen j (List.mem_cons_of_mem _ hj)
          · rw [show lintStep st c
                = ⟨st.errors ++ [dupIsinMsg i c.name prev],
                   fun k => if k = i then some c.name else st.seen_isins k⟩ by
              simp [lintStep, hi, hne, hs]]
            rcases lint_errors_grow rest
                ⟨st.errors ++ [dupIsinMsg i c.name prev],
                 fun k => if k = i then some c.name else st.seen_isins k⟩ with ⟨ext, hx⟩
            constructor
            · intro h0
              rw [hx] at h0
              simp at h0
            · rintro ⟨he, hnd, hseen⟩
              have hcontra := hseen i (List.mem_cons_self _ _)
              rw [hs] at hcontra
              cases hcontra

/-! ## Helper lemma about loading -/

theorem load_foldl : ∀ (files : List InputFile) (st : RegistryState),
    files.foldl load_file st
      = ⟨st.commodities ++ (files.map fileRecords).flatten,
         st.load_errors ++ files.filterMap fileError⟩ := by
  intro files
  induction files with
  | nil =>
      intro st
      rcases st with ⟨cms, errs⟩
      simp
  | cons f rest ih =>
      intro st
      rcases f with ⟨p, cnt⟩
      rcases cnt with _ | fc
      · rw [List.foldl_cons, show load_file st ⟨p, none⟩ = st from rfl, ih st]
        simp [fileRecords, fileError]
      · rcases fc with cs | _ | d
        · rw [List.foldl_cons,
            show load_file st ⟨p, some (FileContent.parsed cs)⟩
              = ⟨st.commodities ++ cs, st.load_errors⟩ from rfl, ih _]
          simp [fileRecords, fileError, List.append_assoc]
        · rw [List.foldl_cons,
            show load_file st ⟨p, some FileContent.empty⟩ = st from rfl, ih st]
          simp [fileRecords, fileError]
        · rw [List.foldl_cons,
            show load_file st ⟨p, some (FileContent.bad d)⟩
              = ⟨st.commodities, st.load_errors ++ [loadErrorMsg p d]⟩ from rfl, ih _]
          simp [fileRecords, fileError, List.append_assoc]

/-! ## Helper lemmas about characters and the Luhn checksum -/

theorem pyIsDigitChar_bounds {c : Char} (h : pyIsDigitChar c = true) :
    48 ≤ c.toNat ∧ c.toNat ≤ 57 := by
  simpa [pyIsDigitChar] using h

theorem char_toNat_inj {c d : Char} (h : c.toNat = d.toNat) : c = d :=
  Char.eq_of_val_eq (UInt32.toNat.inj h)

theorem pyUpperChar_digit {c : Char} (h : pyIsDigitChar c = true) : pyUpperChar c = c := by
  have hb := pyIsDigitChar_bounds h
  have hl : pyIsLowerChar c = false := by
    simp only [pyIsLowerChar, Bool.and_eq_false_iff, decide_eq_false_iff_not]
    omega
  simp [pyUpperChar, hl]

theorem pyIsAlnumChar_digit {c : Char} (h : pyIsDigitChar c = true) :
    pyIsAlnumChar c = true := by
  simp [pyIsAlnumChar, h]

theorem isinDigits_append_digit (l : List Char) (x : Char) (h : pyIsDigitChar x = true) :
    isinDigits (l ++ [x]) = isinDigits l ++ [x.toNat - 48] := by
  induction l with
  | nil => simp [isinDigits, h]
  | cons c rest ih =>
      by_cases hc : pyIsDigitChar c = true
      · simp [isinDigits, hc, ih]
      · simp [isinDigits, hc, ih]

theorem luhnChecksum_append (ds : List Nat) (v : Nat) :
    luhnChecksum (ds ++ [v]) = v + luhnSum ds.reverse 1 := by
  simp [luhnChecksum, List.reverse_append, luhnSum]

theorem luhnSum_eq_mapIdx : ∀ (l : List Nat) (i : Nat),
    luhnSum l i
      = (l.mapIdx fun j d =>
          if (i + j) % 2 = 1 then (if d * 2 > 9 then d * 2 - 9 else d * 2) else d).sum := by
  intro l
  induction l with
  | nil => intro i; simp [luhnSum]
  | cons d rest ih =>
      intro i
      rw [List.mapIdx_cons, List.sum_cons, luhnSum, ih (i + 1)]
      have harg : (fun j dd =>
          if (i + (j + 1)) % 2 = 1 then (if dd * 2 > 9 then dd * 2 - 9 else dd * 2) else dd)
          = (fun j dd =>
          if (i + 1 + j) % 2 = 1 then (if dd * 2 > 9 then dd * 2 - 9 else dd * 2) else dd) := by
        funext j dd
        have hj : i + (j + 1) = i + 1 + j := by omega
        rw [hj]
      rw [harg]
      simp

theorem specLuhnSum_eq (ds : List Nat) : specLuhnSum ds = luhnChecksum ds := by
  rw [specLuhnSum, luhnChecksum, luhnSum_eq_mapIdx ds.reverse 0]
  simp

theorem specDigitStream_eq (s : List Char) : specDigitStream s = isinDigits s := by
  induction s with
  | nil => rfl
  | cons c rest ih =>
      by_cases hc : pyIsDigitChar c = true
      · simp only [specDigitStream, List.foldr_cons, isinDigits, hc, if_true]
        rw [← ih]
        rfl
      · simp only [specDigitStream, List.foldr_cons, isinDigits, hc, if_false]
        rw [← ih]
        rfl

theorem pyIsAlnum_iff (s : String) :
    pyIsAlnum s = true ↔ s.data ≠ [] ∧ ∀ c ∈ s.data, pyIsAlnumChar c = true := by
  simp [pyIsAlnum, List.all_eq_true, List.isEmpty_iff]

theorem pyIsAlphaStr_iff (s : String) :
    pyIsAlphaStr s = true ↔ s.data ≠ [] ∧ ∀ c ∈ s.data, pyIsAlphaChar c = true := by
  simp [pyIsAlphaStr, List.all_eq_true, List.isEmpty_iff]

theorem validate_isin_ok_iff (s : String) :
    accepts (validate_isin s) = true ↔
      pyIsAlnum (pyUpper s) = true ∧ (pyUpper s).data.length = 12 ∧
      pyIsAlphaStr (String.mk ((pyUpper s).data.take 2)) = true ∧
      luhnChecksum (isinDigits (pyUpper s).data) % 10 = 0 := by
  unfold validate_isin
  dsimp only
  split_ifs with h1 h2 h3
  · simp only [accepts]
    constructor
    · intro hh; exact absurd hh (by simp)
    · rintro ⟨ha, hl, -, -⟩
      rcases h1 with h | h
      · rw [ha] at h; cases h
      · exact absurd hl h
  · simp only [accepts]
    constructor
    · intro hh; exact absurd hh (by simp)
    · rintro ⟨-, -, hp, -⟩
      rw [hp] at h2; cases h2
  · simp only [accepts]
    constructor
    · intro hh; exact absurd hh (by simp)
    · rintro ⟨-, -, -, hl⟩
      exact absurd hl h3
  · simp only [accepts, true_iff]
    push_neg at h1 h3
    refine ⟨?_, h1.2, ?_, h3⟩
    · rcases hb : pyIsAlnum (pyUpper s) with _ | _
      · exact absurd hb h1.1
      · rfl
    · rcases hb : pyIsAlphaStr (String.mk ((pyUpper s).data.take 2)) with _ | _
      · exact absurd hb h2
      · rfl

/-! ## The claims -/

/-- C1: `validate_isin` accepts a string iff, after uppercasing, it is exactly
12 alphanumeric characters whose first two characters are alphabetic and whose
Luhn checksum (letters expanded to two digits via `code_point - 55`, stream
reversed, digits at odd 0-indexed positions doubled with 9 subtracted when the
doubled value exceeds 9, then summed) is divisible by 10; in particular
`US0378331005` is accepted and `US0378331006` is rejected, and changing the
final digit of an accepted string to any other digit makes it rejected. -/
theorem C1_validate_isin (s : String) (t : List Char) (d d' : Char)
    (hd : pyIsDigitChar d = true) (hd' : pyIsDigitChar d' = true) (hdd : d ≠ d')
    (hacc : accepts (validate_isin (String.mk (t ++ [d]))) = true) :
    (accepts (validate_isin s) = true ↔ isinSpecOk s) ∧
    accepts (validate_isin "US0378331005") = true ∧
    accepts (validate_isin "US0378331006") = false ∧
    accepts (validate_isin (String.mk (t ++ [d']))) = false := by
  refine ⟨?_, by decide, by decide, ?_⟩
  · rw [validate_isin_ok_iff]
    simp only [isinSpecOk]
    rw [pyIsAlnum_iff, pyIsAlphaStr_iff, specDigitStream_eq, specLuhnSum_eq]
    constructor
    · rintro ⟨⟨-, hall⟩, hlen, ⟨-, halpha⟩, hluhn⟩
      exact ⟨hlen, hall, halpha, hluhn⟩
    · rintro ⟨hlen, hall, halpha, hluhn⟩
      refine ⟨⟨?_, hall⟩, hlen, ⟨?_, halpha⟩, hluhn⟩
      · intro h0
        rw [h0] at hlen
        cases hlen
      · intro h0
        have h2 : ((pyUpper s).data.take 2).length = 2 := by
          rw [List.length_take]
          omega
        have h0' : (pyUpper s).data.take 2 = [] := h0
        rw [h0'] at h2
        cases h2
  · have hux : ∀ x : Char, pyIsDigitChar x = true →
        (pyUpper (String.mk (t ++ [x]))).data = t.map pyUpperChar ++ [x] := by
      intro x hx
      simp [pyUpper, pyUpperChar_digit hx]
    rw [validate_isin_ok_iff] at hacc
    obtain ⟨-, -, -, hluhn⟩ := hacc
    cases hb : accepts (validate_isin (String.mk (t ++ [d']))) with
    | false => rfl
    | true =>
        exfalso
        rw [validate_isin_ok_iff] at hb
        obtain ⟨-, -, -, hluhn'⟩ := hb
        rw [hux d hd] at hluhn
        rw [hux d' hd'] at hluhn'
        rw [isinDigits_append_digit _ _ hd, luhnChecksum_append] at hluhn
        rw [isinDigits_append_digit _ _ hd', luhnChecksum_append] at hluhn'
        have hbd := pyIsDigitChar_bounds hd
        have hbd' := pyIsDigitChar_bounds hd'
        have hdne : d.toNat ≠ d'.toNat := fun hh => hdd (char_toNat_inj hh)
        omega

/-- Closed instance of C1: the theorem applied to the Apple ISIN, showing that
flipping its final digit 5 to 6 is rejected. -/
theorem C1_validate_isin_witness :
    accepts (validate_isin (String.mk ("US037833100".data ++ ['6']))) = false :=
  (C1_validate_isin "US0378331005" "US037833100".data '5' '6'
    (by decide) (by decide) (by decide) (by decide)).2.2.2

theorem optToList_mem {o : Option Commodity} {x : Commodity} (h : x ∈ optToList o) :
    o = some x := by
  rcases o with _ | c
  · simp [optToList] at h
  · have hh : x = c := by simpa [optToList] using h
    rw [hh]

/-- C2 counterexample: two records sharing an ISIN *and* a canonical name are
not both retrievable — `find_candidates` deduplicates by name, so only the
later-loaded record is returned. -/
theorem C2_counterexample :
    sampleGoldUSD.isin = sampleGoldEUR.isin ∧
    find_candidates [sampleGoldUSD, sampleGoldEUR] "US0378331005" none = [sampleGoldEUR] ∧
    sampleGoldUSD ∉ find_candidates [sampleGoldUSD, sampleGoldEUR] "US0378331005" none :=
  ⟨rfl, by decide, by decide⟩

/-- C2 (amended): appending a record to the loaded sequence overwrites its
uppercased name, FIGI and ticker keys (last wins) and pushes the record onto
the front of the list for its uppercased ISIN; consequently two records with the
same non-empty ISIN and *distinct canonical names* are both retrievable via
`find_candidates` on that ISIN, with the later-loaded record first. -/
theorem C2_index_semantics (cs : List Commodity) (c c1 c2 : Commodity) (k i : String)
    (h1 : c1.isin = some i) (h2 : c2.isin = some i) (hi : i ≠ "")
    (hnm : c1.name ≠ c2.name) :
    (by_name (cs ++ [c]) k = if k = pyUpper c.name then some c else by_name cs k) ∧
    (∀ f, c.figi = some f → f ≠ "" →
      by_figi (cs ++ [c]) k = if k = pyUpper f then some c else by_figi cs k) ∧
    (by_ticker (cs ++ [c]) k = if k ∈ tickerKeys c then some c else by_ticker cs k) ∧
    (∀ i0, c.isin = some i0 → i0 ≠ "" →
      by_isin (cs ++ [c]) k = if k = pyUpper i0 then c :: by_isin cs k else by_isin cs k) ∧
    find_candidates [c1, c2] i none = [c2, c1] := by
  refine ⟨by_name_append cs c k, fun f hf hne => by_figi_append cs c f k hf hne,
    by_ticker_append cs c k, fun i0 hi0 hne => by_isin_append cs c i0 k hi0 hne, ?_⟩
  have hisin : by_isin [c1, c2] (pyUpper i) = [c2, c1] := by
    simp [by_isin, addIsin, h1, h2, hi]
  have hfc : find_candidates [c1, c2] i none
      = dedupByName (by_isin [c1, c2] (pyUpper i)
          ++ optToList (by_name [c1, c2] (pyUpper i))
          ++ optToList (by_figi [c1, c2] (pyUpper i))) [] := by
    simp only [find_candidates, if_neg hi]
  rw [hfc, hisin, List.append_assoc]
  rw [dedup_append_drop [c2, c1] _ [] ?_]
  · simp [dedupByName, hnm]
  · intro x hx
    refine Or.inl ?_
    have hx2 : x ∈ [c1, c2] := by
      rcases List.mem_append.mp hx with hx' | hx'
      · rcases by_name_sound [c1, c2] (pyUpper i) x (optToList_mem hx') with ⟨hm, -⟩
        exact hm
      · rcases by_figi_sound [c1, c2] (pyUpper i) x (optToList_mem hx') with ⟨hm, -⟩
        exact hm
    rcases List.mem_cons.mp hx2 with rfl | hx3
    · simp
    · rcases List.mem_cons.mp hx3 with rfl | hx4
      · simp
      · simp at hx4

/-- Closed instance of C2: two records with the Apple ISIN and distinct names
are both returned, later-loaded first. -/
theorem C2_index_semantics_witness :
    find_candidates [sampleGoldUSD, sampleGold2] "US0378331005" none
      = [sampleGold2, sampleGoldUSD] :=
  (C2_index_semantics [] sampleGoldUSD sampleGoldUSD sampleGold2 "K" "US0378331005"
    rfl rfl (by decide) (by decide)).2.2.2.2

/-- C3: when a non-empty currency is supplied, `find_candidates` returns
exactly the currency-unfiltered candidates whose currency matches it
case-insensitively, in the same relative order; in particular every returned
returned record has an uppercased currency equal to the uppercased supplied one. -/
theorem C3_currency_filter (cs : List Commodity) (token cur : String) (hcur : cur ≠ "") :
    find_candidates cs token (some cur)
      = (find_candidates cs token none).filter
          (fun c => pyUpper c.currency == pyUpper cur) ∧
    ∀ c ∈ find_candidates cs token (some cur), pyUpper c.currency = pyUpper cur := by
  have heq : find_candidates cs token (some cur)
      = (find_candidates cs token none).filter
          (fun c => pyUpper c.currency == pyUpper cur) := by
    by_cases ht : token = ""
    · simp [find_candidates, ht]
    · simp only [find_candidates, if_neg ht]
      rw [if_neg hcur]
  refine ⟨heq, ?_⟩
  intro c hc
  rw [heq] at hc
  have hf := (List.mem_filter.mp hc).2
  simpa using hf

/-- Closed instance of C3: filtering the Apple-ISIN candidates to EUR. -/
theorem C3_currency_filter_witness :
    find_candidates [sampleGoldUSD, sampleGold2] "US0378331005" (some "EUR")
      = (find_candidates [sampleGoldUSD, sampleGold2] "US0378331005" none).filter
          (fun c => pyUpper c.currency == pyUpper "EUR") :=
  (C3_currency_filter [sampleGoldUSD, sampleGold2] "US0378331005" "EUR" (by decide)).1

/-- C4 counterexample: `by_name` is last-wins, so a record shadowed by a
later record with the same uppercased name is *not* returned when looking up
its own name — the claim fails for `sampleGoldUSD`. -/
theorem C4_counterexample :
    sampleGoldUSD ∈ [sampleGoldUSD, sampleGoldEUR] ∧
    by_name [sampleGoldUSD, sampleGoldEUR] (pyUpper sampleGoldUSD.name) = some sampleGoldEUR ∧
    sampleGoldEUR ≠ sampleGoldUSD :=
  ⟨by decide, by decide, by decide⟩

/-- C4 (amended): for every record in the loaded sequence *that no later
record shadows* (no later record shares its uppercased name), looking up the
own uppercased name of the record in `by_name` returns that exact record. -/
theorem C4_by_name_roundtrip (l1 l2 : List Commodity) (c : Commodity)
    (h : ∀ d ∈ l2, pyUpper d.name ≠ pyUpper c.name) :
    by_name (l1 ++ c :: l2) (pyUpper c.name) = some c := by
  have hext : ∀ (ys xs : List Commodity), (∀ d ∈ ys, pyUpper d.name ≠ pyUpper c.name) →
      by_name (xs ++ ys) (pyUpper c.name) = by_name xs (pyUpper c.name) := by
    intro ys
    induction ys with
    | nil => intro xs _; simp
    | cons y rest ih =>
        intro xs hy
        have hy1 : pyUpper c.name ≠ pyUpper y.name :=
          fun hh => hy y (List.mem_cons_self _ _) hh.symm
        have hsp : xs ++ y :: rest = (xs ++ [y]) ++ rest := by simp
        rw [hsp, ih _ fun d hd => hy d (List.mem_cons_of_mem _ hd)]
        rw [by_name_append, if_neg hy1]
  have hsplit : l1 ++ c :: l2 = (l1 ++ [c]) ++ l2 := by simp
  rw [hsplit, hext l2 (l1 ++ [c]) h, by_name_append, if_pos rfl]

/-- Closed instance of C4: the last record with a given name is returned. -/
theorem C4_by_name_roundtrip_witness :
    by_name ([sampleGoldUSD] ++ sampleGold2 :: []) (pyUpper sampleGold2.name)
      = some sampleGold2 :=
  C4_by_name_roundtrip [sampleGoldUSD] [] sampleGold2
    (fun d hd => absurd hd (List.not_mem_nil d))

/-- C5 counterexample: `validate_currency` relies on Python `str.isupper`,
which ignores uncased characters, so the 3-character string "EU1" — which
contains the non-letter '1' — is accepted, contradicting the claim that every
character must be an uppercase ASCII letter. -/
theorem C5_counterexample :
    validate_currency "EU1" = Except.ok "EU1" ∧ pyIsAlphaChar '1' = false :=
  ⟨rfl, by decide⟩

/-- C5 (amended): currency validation accepts a string iff it is exactly 3
characters long, contains at least one ASCII letter, and none of its letters
is lowercase; e.g. "EUR" and "EU1" are accepted while "eur" and "EURO" are
rejected. -/
theorem C5_validate_currency (v : String) :
    accepts (validate_currency v)
      = ((v.data.any pyIsAlphaChar
          && v.data.all (fun c => !pyIsAlphaChar c || pyIsUpperChar c))
          && v.data.length == 3) ∧
    accepts (validate_currency "EUR") = true ∧
    accepts (validate_currency "eur") = false ∧
    accepts (validate_currency "EURO") = false ∧
    accepts (validate_currency "EU1") = true := by
  refine ⟨?_, by decide, by decide, by decide, by decide⟩
  unfold validate_currency
  split_ifs with h1
  · simp only [accepts]
    rcases h1 with h | h
    · show false = (pyIsUpperStr v && (v.data.length == 3))
      rw [h]
      rfl
    · have hl : (v.data.length == 3) = false := beq_eq_false_iff_ne.mpr h
      show false = (pyIsUpperStr v && (v.data.length == 3))
      rw [hl]
      simp
  · push_neg at h1
    obtain ⟨hu, hl⟩ := h1
    have hu' : pyIsUpperStr v = true := by
      rcases hb : pyIsUpperStr v with _ | _
      · exact absurd hb hu
      · rfl
    simp only [accepts]
    show true = (pyIsUpperStr v && (v.data.length == 3))
    rw [hu', hl]
    rfl

/-- C6 counterexample: the lint scan reports a duplicate-ISIN error even when
the two records carry the *same* canonical name, contradicting the claim that
such pairs produce no error. -/
theorem C6_counterexample :
    sampleGoldUSD.isin = sampleGoldEUR.isin ∧
    sampleGoldUSD.name = sampleGoldEUR.name ∧
    dupIsinErrors [sampleGoldUSD, sampleGoldEUR]
      = ["Duplicate ISIN US0378331005 in GOLD and GOLD"] :=
  ⟨rfl, rfl, by decide⟩

/-- C6 (amended): the duplicate-ISIN lint check reports no error iff no
non-empty ISIN appears on two loaded records — the canonical names play no
role in the detection. -/
theorem C6_dup_isin (cs : List Commodity) :
    dupIsinErrors cs = [] ↔ (cs.filterMap recordIsin).Nodup := by
  unfold dupIsinErrors
  rw [lint_scan_clean]
  simp

/-- C7 counterexample: the ticker map is not an open provider set — a ticker
supplied under the provider id "ibkr" is dropped at construction and the
record is not retrievable via `find_by_ticker("ibkr", ...)`. -/
theorem C7_counterexample :
    tickersFromDict [("ibkr", "GLD")] = { yahoo := none, ft := none, google := none } ∧
    find_by_ticker [sampleIbkr] "ibkr" "GLD" = none :=
  ⟨rfl, by decide⟩

/-- C7 (amended): the ticker map has exactly the three provider fields
`yahoo`, `ft` and `google`; a non-empty ticker under one of these providers is
indexed under the key `"<PROVIDER>:<TICKER>"` (both uppercased) and
`find_by_ticker` returns the last-loaded record carrying it, and every
`find_by_ticker` hit is a loaded record. -/
theorem C7_ticker_providers (cs : List Commodity) (c x : Commodity) (t : Tickers)
    (p tk : String) (ht : c.tickers = some t) (htk : tk ≠ "") :
    (t.yahoo = some tk → find_by_ticker (cs ++ [c]) "yahoo" tk = some c) ∧
    (t.ft = some tk → find_by_ticker (cs ++ [c]) "ft" tk = some c) ∧
    (t.google = some tk → find_by_ticker (cs ++ [c]) "google" tk = some c) ∧
    (find_by_ticker cs p tk = some x → x ∈ cs) := by
  have hkeys : tickerKeys c = itemKeys (tickerItems t) := by simp [tickerKeys, ht]
  refine ⟨?_, ?_, ?_, fun h => by_ticker_sound cs (tickerKey p tk) x h⟩
  · intro hprov
    have hmem : tickerKey "yahoo" tk ∈ tickerKeys c := by
      rw [hkeys]
      refine List.mem_filterMap.mpr ⟨("yahoo", some tk), ?_, ?_⟩
      · simp [tickerItems, hprov]
      · simp [htk]
    rw [find_by_ticker, by_ticker_append, if_pos hmem]
  · intro hprov
    have hmem : tickerKey "ft" tk ∈ tickerKeys c := by
      rw [hkeys]
      refine List.mem_filterMap.mpr ⟨("ft", some tk), ?_, ?_⟩
      · simp [tickerItems, hprov]
      · simp [htk]
    rw [find_by_ticker, by_ticker_append, if_pos hmem]
  · intro hprov
    have hmem : tickerKey "google" tk ∈ tickerKeys c := by
      rw [hkeys]
      refine List.mem_filterMap.mpr ⟨("google", some tk), ?_, ?_⟩
      · simp [tickerItems, hprov]
      · simp [htk]
    rw [find_by_ticker, by_ticker_append, if_pos hmem]

/-- Closed instance of C7: a yahoo ticker is retrievable case-insensitively. -/
theorem C7_ticker_providers_witness :
    find_by_ticker ([] ++ [sampleYahoo]) "yahoo" "XAID.L" = some sampleYahoo :=
  (C7_ticker_providers [] sampleYahoo sampleYahoo
    { yahoo := some "XAID.L", ft := none, google := none } "p" "XAID.L"
    rfl (by decide)).1 rfl

/-- C8: loading a sequence of files concatenates the records of every cleanly
parsed file and records one error string "Error loading <path>: <detail>" per
failing file, in order; a missing path is silently skipped; in particular a
corrupt file followed by a valid file yields the records of the valid file plus
exactly one error naming the corrupt path. -/
theorem C8_load_errors (files : List InputFile) (st : RegistryState) (p : String) :
    (load_files files).commodities = (files.map fileRecords).flatten ∧
    (load_files files).load_errors = files.filterMap fileError ∧
    load_file st { path := p, content := none } = st ∧
    load_files [sampleBadFile, sampleGoodFile]
      = { commodities := [sampleYahoo],
          load_errors := [loadErrorMsg "data/bad.yaml" "mapping values are not allowed here"] } := by
  refine ⟨?_, ?_, rfl, by decide⟩
  · rw [load_files, load_foldl]
    simp
  · rw [load_files, load_foldl]
    simp

/-- C9: a token matching no ISIN, name or FIGI key of the built indices makes
`find_candidates` return the empty list (it is total, so it never raises), and
`find_by_isin` — the first element of `find_candidates`, or absent — returns
absent on it. -/
theorem C9_unknown_token (cs : List Commodity) (token : String) (currency : Option String)
    (hisin : by_isin cs (pyUpper token) = [])
    (hname : by_name cs (pyUpper token) = none)
    (hfigi : by_figi cs (pyUpper token) = none) :
    find_candidates cs token currency = [] ∧
    find_by_isin cs token currency = none ∧
    ∀ (cs2 : List Commodity) (tok2 : String) (cur2 : Option String),
      find_by_isin cs2 tok2 cur2 = (find_candidates cs2 tok2 cur2).head? := by
  have hempty : find_candidates cs token currency = [] := by
    by_cases ht : token = ""
    · simp [find_candidates, ht]
    · simp only [find_candidates, if_neg ht, hisin, hname, hfigi, optToList]
      rcases currency with _ | cur
      · simp [dedupByName]
      · by_cases hc : cur = "" <;> simp [dedupByName, hc]
  refine ⟨hempty, ?_, fun cs2 tok2 cur2 => rfl⟩
  rw [find_by_isin, hempty]
  rfl

/-- Closed instance of C9: an unknown token on a one-record registry. -/
theorem C9_unknown_token_witness :
    find_candidates [sampleGoldUSD] "UNKNOWN" none = [] :=
  (C9_unknown_token [sampleGoldUSD] "UNKNOWN" none (by decide) (by decide) (by decide)).1

/-- C10: every record returned by `find_candidates` is a loaded record whose
uppercased ISIN, uppercased canonical name or uppercased FIGI equals the
uppercased token; the returned list never repeats a canonical name; and the
empty token always yields the empty list. -/
theorem C10_soundness (cs : List Commodity) (token : String) (currency : Option String)
    (c : Commodity) (hc : c ∈ find_candidates cs token currency) :
    c ∈ cs ∧
    ((∃ i, c.isin = some i ∧ pyUpper i = pyUpper token) ∨
      pyUpper c.name = pyUpper token ∨
      (∃ f, c.figi = some f ∧ pyUpper f = pyUpper token)) ∧
    ((find_candidates cs token currency).map Commodity.name).Nodup ∧
    find_candidates cs "" currency = [] := by
  by_cases ht : token = ""
  · rw [ht] at hc
    simp [find_candidates] at hc
  · have hunique : c ∈ dedupByName (by_isin cs (pyUpper token)
        ++ optToList (by_name cs (pyUpper token))
        ++ optToList (by_figi cs (pyUpper token))) [] := by
      rcases currency with _ | cur
      · simpa [find_candidates, if_neg ht] using hc
      · by_cases hcur : cur = ""
        · simpa [find_candidates, if_neg ht, hcur] using hc
        · have hc2 := hc
          simp only [find_candidates, if_neg ht, if_neg hcur] at hc2
          exact (List.mem_filter.mp hc2).1
    have hcand := dedup_subset _ [] c hunique
    have hmatch : c ∈ cs ∧
        ((∃ i, c.isin = some i ∧ pyUpper i = pyUpper token) ∨
          pyUpper c.name = pyUpper token ∨
          (∃ f, c.figi = some f ∧ pyUpper f = pyUpper token)) := by
      rcases List.mem_append.mp hcand with h1 | h1
      · rcases List.mem_append.mp h1 with h2 | h2
        · rcases by_isin_sound cs (pyUpper token) c h2 with ⟨hm, i, hi, -, hk⟩
          exact ⟨hm, Or.inl ⟨i, hi, hk⟩⟩
        · rcases by_name_sound cs (pyUpper token) c (optToList_mem h2) with ⟨hm, hk⟩
          exact ⟨hm, Or.inr (Or.inl hk)⟩
      · rcases by_figi_sound cs (pyUpper token) c (optToList_mem h1) with ⟨hm, f, hf, -, hk⟩
        exact ⟨hm, Or.inr (Or.inr ⟨f, hf, hk⟩)⟩
    have hnodup : ((find_candidates cs token currency).map Commodity.name).Nodup := by
      have hbase := (dedup_names_nodup (by_isin cs (pyUpper token)
          ++ optToList (by_name cs (pyUpper token))
          ++ optToList (by_figi cs (pyUpper token))) []).1
      rcases currency with _ | cur
      · simpa [find_candidates, if_neg ht] using hbase
      · by_cases hcur : cur = ""
        · simpa [find_candidates, if_neg ht, hcur] using hbase
        · have hsub : find_candidates cs token (some cur)
              = (dedupByName (by_isin cs (pyUpper token)
                  ++ optToList (by_name cs (pyUpper token))
                  ++ optToList (by_figi cs (pyUpper token))) []).filter
                  (fun x => pyUpper x.currency == pyUpper cur) := by
            simp only [find_candidates, if_neg ht, if_neg hcur]
          rw [hsub]
          exact hbase.sublist ((List.filter_sublist _).map Commodity.name)
    exact ⟨hmatch.1, hmatch.2, hnodup, by simp [find_candidates]⟩

/-- Closed instance of C10: the candidate list for "GOLD" never repeats a
canonical name. -/
theorem C10_soundness_witness :
    ((find_candidates [sampleGoldUSD] "GOLD" none).map Commodity.name).Nodup :=
  (C10_soundness [sampleGoldUSD] "GOLD" none sampleGoldUSD (by decide)).2.2.1

end CommodityRegistry
